import Mathlib

/-!
Verification of the speech-segment derivation and subtitle re-timing core of
the shuku condenser (src/shuku/cli.py).

Times are modelled exactly: subtitle cue timestamps are integer milliseconds
(pysubs2 stores them as int), and second-valued quantities (segments, padding,
chapter intervals) are rationals, standing for the Python floats; Python's
`int(x)` truncation is modelled by `pyInt`.
-/

namespace Shuku

/-- A subtitle cue as stored by the subtitle library (pysubs2.SSAEvent):
integer millisecond timestamps `start`, `end` and the event text. -/
structure Cue where
  start : Int
  «end» : Int
  text : String
deriving DecidableEq

/-- Truncating floor used below: for a rational this is `q.num / q.den` with
floor-convention integer division (the denominator is positive). -/
def ratFloor (q : ℚ) : ℤ := q.num / (q.den : ℤ)

/-- Python `int(x)` truncates toward zero. -/
def pyInt (q : ℚ) : ℤ := if 0 ≤ q then ratFloor q else -(ratFloor (-q))

/-! ### Interval Merger (merge_overlapping_segments, cli.py lines 797-811) -/

/-- Ordering used by `segments.sort(key=lambda x: x[0])`: compare start times only. -/
def segLE (a b : ℚ × ℚ) : Prop := a.1 ≤ b.1

instance : DecidableRel segLE := fun a b => inferInstanceAs (Decidable (a.1 ≤ b.1))

instance : IsTotal (ℚ × ℚ) segLE := ⟨fun a b => le_total a.1 b.1⟩

instance : IsTrans (ℚ × ℚ) segLE := ⟨fun _ _ _ h h2 => le_trans h h2⟩

instance (priority := 2000) : BEq (ℚ × ℚ) := instBEqOfDecidableEq

instance (priority := 2000) : LawfulBEq (ℚ × ℚ) where
  eq_of_beq h := of_decide_eq_true h
  rfl := by intros; exact decide_eq_true rfl

/-- Python `list.sort` is stable; insertion sort is stable as well, so it
computes exactly the list produced by the source's in-place sort. -/
def sortSegments (l : List (ℚ × ℚ)) : List (ℚ × ℚ) := List.insertionSort segLE l

/-- The left-to-right merging pass: `prev` is the last interval of the
accumulator (`merged[-1]`); when `current[0] <= previous[1]` the source
replaces it by `(previous[0], max(previous[1], current[1]))`, otherwise it
appends `current`. -/
def mergeInto : ℚ × ℚ → List (ℚ × ℚ) → List (ℚ × ℚ)
  | prev, [] => [prev]
  | prev, current :: rest =>
    if current.1 ≤ prev.2 then mergeInto (prev.1, max prev.2 current.2) rest
    else prev :: mergeInto current rest

/-- Run the merging pass over a (sorted) list, seeding the accumulator with
`merged = [segments[0]]`. -/
def mergeRun : List (ℚ × ℚ) → List (ℚ × ℚ)
  | [] => []
  | first :: rest => mergeInto first rest

/-- Return value of `merge_overlapping_segments`: sort by start time, then a
single merging pass. An empty input returns [] at once. -/
def merge_overlapping_segments (segments : List (ℚ × ℚ)) : List (ℚ × ℚ) :=
  mergeRun (sortSegments segments)

/-- State-passing version of `merge_overlapping_segments`, recording the effect
on the caller's argument: `segments.sort(...)` sorts the argument list in
place, so after a call on a non-empty list the caller's list holds the sorted
permutation; on the empty list the function returns before sorting. The first
component is the return value, the second the final contents of the argument. -/
def merge_run (segments : List (ℚ × ℚ)) : List (ℚ × ℚ) × List (ℚ × ℚ) :=
  if segments.isEmpty then ([], segments)
  else (mergeRun (sortSegments segments), sortSegments segments)

/-! ### Speech Segment Deriver (extract_speech_timing_from_subtitles, lines 774-794) -/

/-- pysubs2 `SSAFile.shift(ms=delay)` adds `delay` milliseconds to both
timestamps of a cue. -/
def shiftCue (delay : ℤ) (c : Cue) : Cue :=
  { c with start := c.start + delay, «end» := c.«end» + delay }

/-- The source shifts the subtitle file only when `delay != 0`; the guard is
kept even though shifting by zero is the identity. -/
def applyDelay (delay : ℤ) (cues : List Cue) : List Cue :=
  if delay ≠ 0 then cues.map (shiftCue delay) else cues

/-- The per-cue loop of the Deriver: pad by `padding` seconds on both sides,
clamp each endpoint to be nonnegative independently, and append the interval
only when it has positive duration (`end > start`). -/
def collectSegments (padding : ℚ) : List Cue → List (ℚ × ℚ)
  | [] => []
  | c :: rest =>
    let s : ℚ := max 0 ((c.start : ℚ) / 1000 - padding)
    let e : ℚ := max 0 ((c.«end» : ℚ) / 1000 + padding)
    if s < e then (s, e) :: collectSegments padding rest
    else collectSegments padding rest

/-- Speech Segment Deriver: shift by the configured delay, derive padded
clamped intervals, and merge them. -/
def extract_speech_timing (cues : List Cue) (padding : ℚ) (delay : ℤ) : List (ℚ × ℚ) :=
  merge_overlapping_segments (collectSegments padding (applyDelay delay cues))

/-- Modelled from the spec wording of §4.3 for comparison with the code:
compute `start_sec = cue.start/1000 - padding` and
`end_sec = cue.end/1000 + padding`, clamp both to `>= 0` independently, and
discard the interval entirely when `end_sec <= start_sec`. -/
def deriver_spec_step (padding : ℚ) (c : Cue) : Option (ℚ × ℚ) :=
  let start_sec : ℚ := (c.start : ℚ) / 1000 - padding
  let end_sec : ℚ := (c.«end» : ℚ) / 1000 + padding
  let s := max 0 start_sec
  let e := max 0 end_sec
  if e ≤ s then none else some (s, e)

/-! ### Cue Filter (filter_skip_patterns_in_place lines 727-735,
filter_chapters_in_place lines 753-771) -/

/-- Overlap test of the chapter filter, exactly the nested helper
`segments_overlap` of the source: NOT (sub_end < skip[0] or sub_start > skip[1]). -/
def segments_overlap (sub_start sub_end : ℚ) (skip : ℚ × ℚ) : Bool :=
  !(sub_end < skip.1 || sub_start > skip.2)

/-- Chapter filter: keep a cue unless its [start/1000, end/1000] second range
overlaps some skip interval. -/
def filter_chapters (cues : List Cue) (skip_intervals : List (ℚ × ℚ)) : List Cue :=
  cues.filter (fun line =>
    !(skip_intervals.any (fun skip =>
      segments_overlap ((line.start : ℚ) / 1000) ((line.«end» : ℚ) / 1000) skip)))

/-- A compiled regular expression is abstracted by its language: the Boolean
predicate holding of exactly the strings the pattern can match. -/
def reMatch (lang : String → Bool) (s : String) : Bool :=
  s.toList.inits.any (fun p => lang (String.mk p))

/-- Semantics of a match attempt at an arbitrary position (what `re.search`
would do), used only to contrast with the anchored `reMatch`. -/
def reSearch (lang : String → Bool) (s : String) : Bool :=
  s.toList.tails.any (fun t => reMatch lang (String.mk t))

/-- Pattern filter: keep a cue unless its rendered plain text has a match of
some pattern starting at position 0 (`pattern.match(line.plaintext)`). The
plaintext rendering of pysubs2 is passed in as a function. -/
def filter_skip_patterns (plaintext : Cue → String) (cues : List Cue)
    (skip_patterns : List (String → Bool)) : List Cue :=
  cues.filter (fun line =>
    !(skip_patterns.any (fun lang => reMatch lang (plaintext line))))

/-! ### Subtitle Re-timer (create_condensed_subtitles, lines 1128-1163) -/

/-- Re-base one cue into the condensed timeline, exactly the assignments of the
source: new start `sub.start - segment_start + cumulative_duration`, new end
clamped by the segment boundary, text copied unchanged. -/
def retimeCue (segStart cumul segDur : ℤ) (c : Cue) : Cue :=
  { start := c.start - segStart + cumul
    «end» := min (c.«end» - segStart + cumul) (segDur + cumul)
    text := c.text }

/-- The per-segment loop of create_condensed_subtitles. The source finds the
first cue with `start >= segment_start` by `bisect_left` on the pre-sorted
start times (modelled by `dropWhile` on the sorted cue list) and scans cues
until `sub.start >= segment_end_ms` (the `break`, modelled by `takeWhile`).
Returns the emitted cues together with the final `cumulative_duration`, which
advances by the segment duration whether or not any cue was emitted. -/
def condenseSegs : List (ℚ × ℚ) → List Cue → ℤ → List Cue × ℤ
  | [], _, cumul => ([], cumul)
  | (s, e) :: rest, subs, cumul =>
    let segStart := pyInt (s * 1000)
    let segEnd := pyInt (e * 1000)
    let segDur := segEnd - segStart
    let window := (subs.dropWhile (fun c => decide (c.start < segStart))).takeWhile
      (fun c => decide (c.start < segEnd))
    let step := condenseSegs rest subs (cumul + segDur)
    (window.map (retimeCue segStart cumul segDur) ++ step.1, step.2)

/-- Sum of the integer-millisecond durations of the segments, after the
second-to-millisecond conversion of the re-timer. -/
def totalDurMs (segs : List (ℚ × ℚ)) : ℤ :=
  (segs.map (fun x => pyInt (x.2 * 1000) - pyInt (x.1 * 1000))).sum

/-- Segments annotated with the cumulative output-timeline offset at which each
one starts, the offset advancing by every segment duration. -/
def segsWithCumul : List (ℚ × ℚ) → ℤ → List ((ℚ × ℚ) × ℤ)
  | [], _ => []
  | (s, e) :: rest, cumul =>
    ((s, e), cumul) :: segsWithCumul rest (cumul + (pyInt (e * 1000) - pyInt (s * 1000)))

/-- Modelled from the spec wording of §4.4 for comparison with the code: for
each segment, every cue whose start lies in [segment_start_ms, segment_end_ms)
is re-based by the segment's cumulative offset. -/
def retimer_spec (segs : List (ℚ × ℚ)) (subs : List Cue) (c0 : ℤ) : List Cue :=
  (segsWithCumul segs c0).flatMap (fun x =>
    let segStart := pyInt (x.1.1 * 1000)
    let segEnd := pyInt (x.1.2 * 1000)
    (subs.filter (fun c => decide (segStart ≤ c.start ∧ c.start < segEnd))).map
      (retimeCue segStart x.2 (segEnd - segStart)))

/-! ### Per-file and batch control flow (process_file lines 220-255, main 173-210) -/

/-- The caller of the Deriver in process_file: an empty segment list raises
FileProcessingError("No valid segments found"), modelled as Except.error; the
Deriver itself is total and never signals by exception. -/
def process_file_segments (cues : List Cue) (padding : ℚ) (delay : ℤ) :
    Except String (List (ℚ × ℚ)) :=
  let segs := extract_speech_timing cues padding delay
  if segs.isEmpty then Except.error "No valid segments found" else Except.ok segs

/-- The batch loop of main: each file is tried, FileProcessingError is caught
and logged, and processing continues with the remaining files. Returns the
counts (successful_files, failed_files). -/
def batch_process (padding : ℚ) (delay : ℤ) : List (List Cue) → ℕ × ℕ
  | [] => (0, 0)
  | cues :: rest =>
    let step := batch_process padding delay rest
    match process_file_segments cues padding delay with
    | Except.ok _ => (step.1 + 1, step.2)
    | Except.error _ => (step.1, step.2 + 1)

/-! ### Lyric-format serialization (convert_to_lrc, lines 1178-1194) -/

/-- Quotient of `divmod(start_ms / 1000, 60)`: Python float divmod floors. -/
def lrcMinutes (s : ℤ) : ℤ := ratFloor ((s : ℚ) / 1000 / 60)

/-- Remainder of `divmod(start_ms / 1000, 60)`. -/
def lrcSeconds (s : ℤ) : ℚ := (s : ℚ) / 1000 - 60 * lrcMinutes s

/-- Python `f"{n:02d}"`: pad with a leading zero up to width two; values of two
or more digits are printed in full. -/
def pad2 (n : ℤ) : String := if 0 ≤ n ∧ n < 10 then "0" ++ toString n else toString n

/-- Round half to even, the rounding of Python float formatting. -/
def rhe (q : ℚ) : ℤ :=
  let f := q - ratFloor q
  if f < 1/2 then ratFloor q
  else if 1/2 < f then ratFloor q + 1
  else if ratFloor q % 2 = 0 then ratFloor q else ratFloor q + 1

/-- Python `f"{x:05.2f}"` for `0 <= x < 100`: two fractional digits, zero
padding to a total width of five. -/
def fmt05_2 (q : ℚ) : String :=
  let c := rhe (q * 100)
  pad2 (c / 100) ++ "." ++ pad2 (c % 100)

/-- Timestamp of one LRC line: `f"[{int(minutes):02d}:{seconds:05.2f}]"`. -/
def lrc_time (s : ℤ) : String :=
  "[" ++ pad2 (lrcMinutes s) ++ ":" ++ fmt05_2 (lrcSeconds s) ++ "]"

/-- One emitted LRC line: the timestamp followed by the style-stripped text
(`strip_subtitle_styles` is delegated, it touches only the text). -/
def lrc_line (strip : String → String) (c : Cue) : String :=
  lrc_time c.start ++ strip c.text

/-- Body of convert_to_lrc after the metadata header: one line per cue. -/
def convert_to_lrc_body (strip : String → String) (subs : List Cue) : List String :=
  subs.map (lrc_line strip)

/-! ### Lemmas about the merging pass -/

theorem mergeInto_cons_merge (prev current : ℚ × ℚ) (rest : List (ℚ × ℚ))
    (h : current.1 ≤ prev.2) :
    mergeInto prev (current :: rest) = mergeInto (prev.1, max prev.2 current.2) rest := by
  simp [mergeInto, h]

theorem mergeInto_cons_sep (prev current : ℚ × ℚ) (rest : List (ℚ × ℚ))
    (h : ¬ current.1 ≤ prev.2) :
    mergeInto prev (current :: rest) = prev :: mergeInto current rest := by
  simp [mergeInto, h]

theorem mergeInto_head : ∀ (l : List (ℚ × ℚ)) (p : ℚ × ℚ),
    ∃ e t, mergeInto p l = (p.1, e) :: t
  | [], p => ⟨p.2, [], rfl⟩
  | current :: rest, p => by
    by_cases h : current.1 ≤ p.2
    · rw [mergeInto_cons_merge _ _ _ h]
      exact mergeInto_head rest _
    · rw [mergeInto_cons_sep _ _ _ h]
      exact ⟨p.2, mergeInto current rest, rfl⟩

/-- Consecutive intervals emitted by the merging pass are separated by a
positive gap: the next start is strictly beyond the previous end. -/
theorem mergeInto_chain : ∀ (l : List (ℚ × ℚ)) (p : ℚ × ℚ),
    List.Chain' (fun a b => a.2 < b.1) (mergeInto p l)
  | [], p => List.chain'_singleton p
  | current :: rest, p => by
    by_cases h : current.1 ≤ p.2
    · rw [mergeInto_cons_merge _ _ _ h]
      exact mergeInto_chain rest _
    · rw [mergeInto_cons_sep _ _ _ h]
      obtain ⟨e, t, ht⟩ := mergeInto_head rest current
      rw [ht]
      exact List.chain'_cons.2 ⟨lt_of_not_le h, ht ▸ mergeInto_chain rest current⟩

theorem mergeInto_mem_start : ∀ (l : List (ℚ × ℚ)) (p : ℚ × ℚ) (x : ℚ × ℚ),
    x ∈ mergeInto p l → x.1 = p.1 ∨ ∃ y ∈ l, x.1 = y.1
  | [], p, x, hx => by
    simp only [mergeInto, List.mem_singleton] at hx
    exact Or.inl (by rw [hx])
  | current :: rest, p, x, hx => by
    by_cases h : current.1 ≤ p.2
    · rw [mergeInto_cons_merge _ _ _ h] at hx
      rcases mergeInto_mem_start rest _ x hx with h1 | ⟨y, hy, h2⟩
      · exact Or.inl h1
      · exact Or.inr ⟨y, List.mem_cons_of_mem _ hy, h2⟩
    · rw [mergeInto_cons_sep _ _ _ h] at hx
      rcases List.mem_cons.1 hx with rfl | hx2
      · exact Or.inl rfl
      · rcases mergeInto_mem_start rest current x hx2 with h1 | ⟨y, hy, h2⟩
        · exact Or.inr ⟨current, List.mem_cons_self _ _, h1⟩
        · exact Or.inr ⟨y, List.mem_cons_of_mem _ hy, h2⟩

/-- The merging pass of a start-sorted list is start-sorted. -/
theorem mergeInto_pairwise : ∀ (l : List (ℚ × ℚ)) (p : ℚ × ℚ),
    List.Pairwise segLE (p :: l) → List.Pairwise segLE (mergeInto p l)
  | [], p, _ => List.pairwise_singleton segLE p
  | current :: rest, p, hp => by
    obtain ⟨hple, hrest⟩ := List.pairwise_cons.1 hp
    by_cases h : current.1 ≤ p.2
    · rw [mergeInto_cons_merge _ _ _ h]
      apply mergeInto_pairwise rest
      exact List.pairwise_cons.2
        ⟨fun y hy => hple y (List.mem_cons_of_mem _ hy), (List.pairwise_cons.1 hrest).2⟩
    · rw [mergeInto_cons_sep _ _ _ h]
      refine List.pairwise_cons.2 ⟨fun y hy => ?_, mergeInto_pairwise rest current hrest⟩
      rcases mergeInto_mem_start rest current y hy with h1 | ⟨z, hz, h2⟩
      · show p.1 ≤ y.1
        rw [h1]
        exact hple current (List.mem_cons_self _ _)
      · show p.1 ≤ y.1
        rw [h2]
        exact hple z (List.mem_cons_of_mem _ hz)

/-- The merging pass preserves well-formedness of intervals (nonnegative start,
positive duration). -/
theorem mergeInto_wf : ∀ (l : List (ℚ × ℚ)) (p : ℚ × ℚ),
    0 ≤ p.1 → p.1 < p.2 → (∀ x ∈ l, 0 ≤ x.1 ∧ x.1 < x.2) →
    ∀ x ∈ mergeInto p l, 0 ≤ x.1 ∧ x.1 < x.2
  | [], p, hp0, hp1, _, x, hx => by
    simp only [mergeInto, List.mem_singleton] at hx
    exact hx ▸ ⟨hp0, hp1⟩
  | current :: rest, p, hp0, hp1, hl, x, hx => by
    by_cases h : current.1 ≤ p.2
    · rw [mergeInto_cons_merge _ _ _ h] at hx
      exact mergeInto_wf rest (p.1, max p.2 current.2) hp0
        (lt_of_lt_of_le hp1 (le_max_left _ _))
        (fun y hy => hl y (List.mem_cons_of_mem _ hy)) x hx
    · rw [mergeInto_cons_sep _ _ _ h] at hx
      rcases List.mem_cons.1 hx with rfl | hx2
      · exact ⟨hp0, hp1⟩
      · obtain ⟨hc0, hc1⟩ := hl current (List.mem_cons_self _ _)
        exact mergeInto_wf rest current hc0 hc1
          (fun y hy => hl y (List.mem_cons_of_mem _ hy)) x hx2

/-- Every input interval of a start-sorted list ends up inside some merged
interval: its start is not below the merged start and its end not above the
merged end. -/
theorem mergeInto_cover : ∀ (l : List (ℚ × ℚ)) (p : ℚ × ℚ),
    List.Pairwise segLE (p :: l) →
    ∀ x ∈ p :: l, ∃ y ∈ mergeInto p l, y.1 ≤ x.1 ∧ x.2 ≤ y.2
  | [], p, _, x, hx => by
    simp only [List.mem_singleton] at hx
    exact ⟨p, by simp [mergeInto], hx ▸ ⟨le_refl _, le_refl _⟩⟩
  | current :: rest, p, hp, x, hx => by
    obtain ⟨hple, hrest⟩ := List.pairwise_cons.1 hp
    by_cases h : current.1 ≤ p.2
    · rw [mergeInto_cons_merge _ _ _ h]
      have hp2 : List.Pairwise segLE ((p.1, max p.2 current.2) :: rest) :=
        List.pairwise_cons.2
          ⟨fun y hy => hple y (List.mem_cons_of_mem _ hy), (List.pairwise_cons.1 hrest).2⟩
      rcases List.mem_cons.1 hx with rfl | hx2
      · obtain ⟨y, hy, hy1, hy2⟩ :=
          mergeInto_cover rest _ hp2 _ (List.mem_cons_self _ _)
        exact ⟨y, hy, hy1, le_trans (le_max_left _ _) hy2⟩
      rcases List.mem_cons.1 hx2 with rfl | hx3
      · obtain ⟨y, hy, hy1, hy2⟩ :=
          mergeInto_cover rest _ hp2 _ (List.mem_cons_self _ _)
        exact ⟨y, hy, le_trans hy1 (hple x (List.mem_cons_self _ _)),
          le_trans (le_max_right _ _) hy2⟩
      · obtain ⟨y, hy, hy1, hy2⟩ :=
          mergeInto_cover rest _ hp2 _ (List.mem_cons_of_mem _ hx3)
        exact ⟨y, hy, hy1, hy2⟩
    · rw [mergeInto_cons_sep _ _ _ h]
      rcases List.mem_cons.1 hx with rfl | hx2
      · exact ⟨x, List.mem_cons_self _ _, le_refl _, le_refl _⟩
      · obtain ⟨y, hy, hy1, hy2⟩ := mergeInto_cover rest current hrest x hx2
        exact ⟨y, List.mem_cons_of_mem _ hy, hy1, hy2⟩

/-- Two adjacent list entries with the same start time can be exchanged without
changing the merging pass, provided both are proper intervals (start at most
end). This is where properness matters: a degenerate interval can fail to
absorb a tied successor that the successor would absorb. -/
theorem mergeInto_swap (p a b : ℚ × ℚ) (l : List (ℚ × ℚ)) (hab : a.1 = b.1)
    (ha : a.1 ≤ a.2) (hb : b.1 ≤ b.2) :
    mergeInto p (a :: b :: l) = mergeInto p (b :: a :: l) := by
  by_cases h : a.1 ≤ p.2
  · have hB : b.1 ≤ p.2 := by rw [← hab]; exact h
    rw [mergeInto_cons_merge _ _ _ h, mergeInto_cons_merge _ _ _ hB]
    have hb2 : b.1 ≤ (p.1, max p.2 a.2).2 := le_trans hB (le_max_left _ _)
    have ha2 : a.1 ≤ (p.1, max p.2 b.2).2 := le_trans h (le_max_left _ _)
    rw [mergeInto_cons_merge _ _ _ hb2, mergeInto_cons_merge _ _ _ ha2]
    have hmax : max (max p.2 a.2) b.2 = max (max p.2 b.2) a.2 := by
      rw [max_assoc, max_comm a.2 b.2, ← max_assoc]
    simp only [hmax]
  · have hB : ¬ b.1 ≤ p.2 := by rw [← hab]; exact h
    rw [mergeInto_cons_sep _ _ _ h, mergeInto_cons_sep _ _ _ hB]
    have hba : b.1 ≤ a.2 := by rw [← hab]; exact ha
    have hab2 : a.1 ≤ b.2 := by rw [hab]; exact hb
    rw [mergeInto_cons_merge _ _ _ hba, mergeInto_cons_merge _ _ _ hab2]
    rw [hab, max_comm a.2 b.2]

/-- Heads of two start-sorted permutations of the same multiset share the same
(minimal) start time. -/
theorem perm_heads_start_eq (a b : ℚ × ℚ) (r₁ r₂ : List (ℚ × ℚ))
    (hperm : (a :: r₁).Perm (b :: r₂))
    (h₁ : List.Pairwise segLE (a :: r₁)) (h₂ : List.Pairwise segLE (b :: r₂)) :
    a.1 = b.1 := by
  have hb : b ∈ a :: r₁ := hperm.mem_iff.2 (List.mem_cons_self _ _)
  have ha : a ∈ b :: r₂ := hperm.mem_iff.1 (List.mem_cons_self _ _)
  have h1 : a.1 ≤ b.1 := by
    rcases List.mem_cons.1 hb with rfl | hb2
    · exact le_refl _
    · exact (List.pairwise_cons.1 h₁).1 b hb2
  have h2 : b.1 ≤ a.1 := by
    rcases List.mem_cons.1 ha with rfl | ha2
    · exact le_refl _
    · exact (List.pairwise_cons.1 h₂).1 a ha2
  exact le_antisymm h1 h2

/-- The merging pass does not depend on the relative order of entries with tied
start times, as long as all intervals are proper: over any two start-sorted
arrangements of the same multiset it yields the same result (fuel-indexed
induction). -/
theorem mergeInto_perm : ∀ (n : ℕ) (t₁ t₂ : List (ℚ × ℚ)) (p : ℚ × ℚ),
    t₁.length ≤ n → t₁.Perm t₂ →
    List.Pairwise segLE t₁ → List.Pairwise segLE t₂ →
    (∀ x ∈ t₁, x.1 ≤ x.2) →
    mergeInto p t₁ = mergeInto p t₂ := by
  intro n
  induction n with
  | zero =>
    intro t₁ t₂ p hlen hperm _ _ _
    have ht₁ : t₁ = [] := List.length_eq_zero.1 (Nat.le_zero.1 hlen)
    subst ht₁
    rw [hperm.symm.eq_nil]
  | succ n ih =>
    intro t₁ t₂ p hlen hperm hs₁ hs₂ hpr
    match t₁, t₂ with
    | [], t₂ =>
      rw [hperm.symm.eq_nil]
    | a :: r₁, [] =>
      exact absurd hperm.eq_nil (by simp)
    | a :: r₁, b :: r₂ =>
      have hab : a.1 = b.1 := perm_heads_start_eq a b r₁ r₂ hperm hs₁ hs₂
      have hlen₁ : r₁.length ≤ n := Nat.le_of_succ_le_succ hlen
      have hr₁ : List.Pairwise segLE r₁ := (List.pairwise_cons.1 hs₁).2
      have hr₂ : List.Pairwise segLE r₂ := (List.pairwise_cons.1 hs₂).2
      by_cases heq : a = b
      · subst heq
        have hperm2 : r₁.Perm r₂ := hperm.cons_inv
        have hprr : ∀ x ∈ r₁, x.1 ≤ x.2 :=
          fun x hx => hpr x (List.mem_cons_of_mem _ hx)
        by_cases hc : a.1 ≤ p.2
        · rw [mergeInto_cons_merge _ _ _ hc, mergeInto_cons_merge _ _ _ hc]
          exact ih r₁ r₂ _ hlen₁ hperm2 hr₁ hr₂ hprr
        · rw [mergeInto_cons_sep _ _ _ hc, mergeInto_cons_sep _ _ _ hc]
          rw [ih r₁ r₂ a hlen₁ hperm2 hr₁ hr₂ hprr]
      · have hbr₁ : b ∈ r₁ := by
          rcases List.mem_cons.1 (hperm.mem_iff.2 (List.mem_cons_self _ _)) with h | h
          · exact absurd h.symm heq
          · exact h
        have e₁ : r₁.Perm (b :: r₁.erase b) := List.perm_cons_erase hbr₁
        have herase : List.Pairwise segLE (r₁.erase b) :=
          hr₁.sublist (List.erase_sublist _ _)
        have hmin₁ : ∀ x ∈ a :: r₁, a.1 ≤ x.1 := by
          intro x hx
          rcases List.mem_cons.1 hx with rfl | hx2
          · exact le_refl _
          · exact (List.pairwise_cons.1 hs₁).1 x hx2
        have hsorted_be : List.Pairwise segLE (b :: r₁.erase b) := by
          refine List.pairwise_cons.2 ⟨fun y hy => ?_, herase⟩
          have hyr : y ∈ r₁ := List.Sublist.mem hy (List.erase_sublist _ _)
          show b.1 ≤ y.1
          rw [← hab]
          exact hmin₁ y (List.mem_cons_of_mem _ hyr)
        have hprr : ∀ x ∈ r₁, x.1 ≤ x.2 :=
          fun x hx => hpr x (List.mem_cons_of_mem _ hx)
        have hpr_be : ∀ x ∈ b :: r₁.erase b, x.1 ≤ x.2 := by
          intro x hx
          rcases List.mem_cons.1 hx with rfl | hx2
          · exact hpr x (List.mem_cons_of_mem _ hbr₁)
          · exact hprr x (List.Sublist.mem hx2 (List.erase_sublist _ _))
        have key : ∀ q : ℚ × ℚ, mergeInto q r₁ = mergeInto q (b :: r₁.erase b) :=
          fun q => ih r₁ (b :: r₁.erase b) q hlen₁ e₁ hr₁ hsorted_be hprr
        have step1 : mergeInto p (a :: r₁) = mergeInto p (a :: b :: r₁.erase b) := by
          by_cases hc : a.1 ≤ p.2
          · rw [mergeInto_cons_merge _ _ _ hc, mergeInto_cons_merge _ _ _ hc, key]
          · rw [mergeInto_cons_sep _ _ _ hc, mergeInto_cons_sep _ _ _ hc, key]
        have step2 : mergeInto p (a :: b :: r₁.erase b) = mergeInto p (b :: a :: r₁.erase b) :=
          mergeInto_swap p a b _ hab (hpr a (List.mem_cons_self _ _))
            (hpr b (List.mem_cons_of_mem _ hbr₁))
        have e₂ : (a :: r₁.erase b).Perm r₂ := by
          have c₁ : (a :: b :: r₁.erase b).Perm (a :: r₁) := (e₁.cons a).symm
          have c₂ : (b :: a :: r₁.erase b).Perm (a :: b :: r₁.erase b) :=
            List.Perm.swap a b _
          exact (c₂.trans (c₁.trans hperm)).cons_inv
        have hsorted_ae : List.Pairwise segLE (a :: r₁.erase b) := by
          refine List.pairwise_cons.2 ⟨fun y hy => ?_, herase⟩
          exact hmin₁ y (List.mem_cons_of_mem _ (List.Sublist.mem hy (List.erase_sublist _ _)))
        have hpr_ae : ∀ x ∈ a :: r₁.erase b, x.1 ≤ x.2 := by
          intro x hx
          rcases List.mem_cons.1 hx with rfl | hx2
          · exact hpr x (List.mem_cons_self _ _)
          · exact hprr x (List.Sublist.mem hx2 (List.erase_sublist _ _))
        have hlen₂ : (a :: r₁.erase b).length ≤ n := by
          have h1 : (r₁.erase b).length = r₁.length - 1 := List.length_erase_of_mem hbr₁
          have h2 : 1 ≤ r₁.length := List.length_pos.2 (List.ne_nil_of_mem hbr₁)
          simp only [List.length_cons, h1]
          omega
        have step3 : mergeInto p (b :: a :: r₁.erase b) = mergeInto p (b :: r₂) := by
          by_cases hc : b.1 ≤ p.2
          · rw [mergeInto_cons_merge _ _ _ hc, mergeInto_cons_merge _ _ _ hc]
            exact ih _ r₂ _ hlen₂ e₂ hsorted_ae hr₂ hpr_ae
          · rw [mergeInto_cons_sep _ _ _ hc, mergeInto_cons_sep _ _ _ hc]
            rw [ih _ r₂ b hlen₂ e₂ hsorted_ae hr₂ hpr_ae]
        exact step1.trans (step2.trans step3)

/-- The whole merging pass (seeding the accumulator with the first element) is
invariant under permutation of a start-sorted proper-interval list. -/
theorem mergeRun_perm (t₁ t₂ : List (ℚ × ℚ)) (hperm : t₁.Perm t₂)
    (hs₁ : List.Pairwise segLE t₁) (hs₂ : List.Pairwise segLE t₂)
    (hpr : ∀ x ∈ t₁, x.1 ≤ x.2) :
    mergeRun t₁ = mergeRun t₂ := by
  match t₁, t₂ with
  | [], t₂ =>
    rw [hperm.symm.eq_nil]
  | a :: r₁, [] =>
    exact absurd hperm.eq_nil (by simp)
  | a :: r₁, b :: r₂ =>
    have hab : a.1 = b.1 := perm_heads_start_eq a b r₁ r₂ hperm hs₁ hs₂
    have hr₁ : List.Pairwise segLE r₁ := (List.pairwise_cons.1 hs₁).2
    have hr₂ : List.Pairwise segLE r₂ := (List.pairwise_cons.1 hs₂).2
    have hprr : ∀ x ∈ r₁, x.1 ≤ x.2 :=
      fun x hx => hpr x (List.mem_cons_of_mem _ hx)
    show mergeInto a r₁ = mergeInto b r₂
    by_cases heq : a = b
    · subst heq
      exact mergeInto_perm r₁.length r₁ r₂ a (le_refl _) hperm.cons_inv hr₁ hr₂ hprr
    · have hbr₁ : b ∈ r₁ := by
        rcases List.mem_cons.1 (hperm.mem_iff.2 (List.mem_cons_self _ _)) with h | h
        · exact absurd h.symm heq
        · exact h
      have har₂ : a ∈ r₂ := by
        rcases List.mem_cons.1 (hperm.mem_iff.1 (List.mem_cons_self _ _)) with h | h
        · exact absurd h heq
        · exact h
      have e₁ : r₁.Perm (b :: r₁.erase b) := List.perm_cons_erase hbr₁
      have e₂ : r₂.Perm (a :: r₂.erase a) := List.perm_cons_erase har₂
      have herase₁ : List.Pairwise segLE (r₁.erase b) :=
        hr₁.sublist (List.erase_sublist _ _)
      have herase₂ : List.Pairwise segLE (r₂.erase a) :=
        hr₂.sublist (List.erase_sublist _ _)
      have hmin₁ : ∀ x ∈ r₁, a.1 ≤ x.1 := (List.pairwise_cons.1 hs₁).1
      have hmin₂ : ∀ x ∈ r₂, b.1 ≤ x.1 := (List.pairwise_cons.1 hs₂).1
      have hsorted_be : List.Pairwise segLE (b :: r₁.erase b) := by
        refine List.pairwise_cons.2 ⟨fun y hy => ?_, herase₁⟩
        show b.1 ≤ y.1
        rw [← hab]
        exact hmin₁ y (List.Sublist.mem hy (List.erase_sublist _ _))
      have hsorted_ae : List.Pairwise segLE (a :: r₂.erase a) := by
        refine List.pairwise_cons.2 ⟨fun y hy => ?_, herase₂⟩
        show a.1 ≤ y.1
        rw [hab]
        exact hmin₂ y (List.Sublist.mem hy (List.erase_sublist _ _))
      have hpr₂ : ∀ x ∈ b :: r₂, x.1 ≤ x.2 :=
        fun x hx => hpr x (hperm.mem_iff.2 hx)
      have step1 : mergeInto a r₁ = mergeInto a (b :: r₁.erase b) :=
        mergeInto_perm r₁.length r₁ _ a (le_refl _) e₁ hr₁ hsorted_be hprr
      have step2 : mergeInto b r₂ = mergeInto b (a :: r₂.erase a) :=
        mergeInto_perm r₂.length r₂ _ b (le_refl _) e₂ hr₂ hsorted_ae
          (fun x hx => hpr₂ x (List.mem_cons_of_mem _ hx))
      have hba : b.1 ≤ a.2 := by
        rw [← hab]
        exact hpr a (List.mem_cons_self _ _)
      have hab2 : a.1 ≤ b.2 := by
        rw [hab]
        exact hpr b (List.mem_cons_of_mem _ hbr₁)
      rw [step1, step2, mergeInto_cons_merge _ _ _ hba, mergeInto_cons_merge _ _ _ hab2]
      have hperm3 : (r₁.erase b).Perm (r₂.erase a) := by
        have h1 : ((a :: r₁).erase a).Perm ((b :: r₂).erase a) := hperm.erase a
        rw [List.erase_cons_head] at h1
        have hne : ¬ (b == a) = true := by
          simp only [beq_iff_eq]
          exact fun hc => heq (hc.symm)
        rw [List.erase_cons_tail hne] at h1
        have h3 : (r₁.erase b).Perm ((b :: r₂.erase a).erase b) := h1.erase b
        rw [List.erase_cons_head] at h3
        exact h3
      have hacc : (a.1, max a.2 b.2) = (b.1, max b.2 a.2) := by
        rw [hab, max_comm a.2 b.2]
      rw [hacc]
      exact mergeInto_perm (r₁.erase b).length _ _ _ (le_refl _) hperm3
        herase₁ herase₂
        (fun x hx => hprr x (List.Sublist.mem hx (List.erase_sublist _ _)))

/-! ### Facts about merge_overlapping_segments -/

theorem sortSegments_perm (l : List (ℚ × ℚ)) : (sortSegments l).Perm l :=
  List.perm_insertionSort segLE l

theorem sortSegments_pairwise (l : List (ℚ × ℚ)) : List.Pairwise segLE (sortSegments l) :=
  List.sorted_insertionSort segLE l

theorem mergeRun_pairwise (l : List (ℚ × ℚ)) (h : List.Pairwise segLE l) :
    List.Pairwise segLE (mergeRun l) := by
  match l with
  | [] => exact List.Pairwise.nil
  | a :: t => exact mergeInto_pairwise t a h

theorem mergeRun_chain (l : List (ℚ × ℚ)) :
    List.Chain' (fun a b => a.2 < b.1) (mergeRun l) := by
  match l with
  | [] => exact List.chain'_nil
  | a :: t => exact mergeInto_chain t a

theorem mergeRun_wf (l : List (ℚ × ℚ)) (h : ∀ x ∈ l, 0 ≤ x.1 ∧ x.1 < x.2) :
    ∀ x ∈ mergeRun l, 0 ≤ x.1 ∧ x.1 < x.2 := by
  match l with
  | [] => intro x hx; cases hx
  | a :: t =>
    obtain ⟨h0, h1⟩ := h a (List.mem_cons_self _ _)
    exact mergeInto_wf t a h0 h1 (fun y hy => h y (List.mem_cons_of_mem _ hy))

theorem mergeRun_cover (l : List (ℚ × ℚ)) (h : List.Pairwise segLE l) :
    ∀ x ∈ l, ∃ y ∈ mergeRun l, y.1 ≤ x.1 ∧ x.2 ≤ y.2 := by
  match l with
  | [] => intro x hx; cases hx
  | a :: t => exact mergeInto_cover t a h

theorem merge_pairwise (l : List (ℚ × ℚ)) :
    List.Pairwise segLE (merge_overlapping_segments l) :=
  mergeRun_pairwise _ (sortSegments_pairwise l)

theorem merge_chain (l : List (ℚ × ℚ)) :
    List.Chain' (fun a b => a.2 < b.1) (merge_overlapping_segments l) :=
  mergeRun_chain _

theorem merge_wf (l : List (ℚ × ℚ)) (h : ∀ x ∈ l, 0 ≤ x.1 ∧ x.1 < x.2) :
    ∀ x ∈ merge_overlapping_segments l, 0 ≤ x.1 ∧ x.1 < x.2 :=
  mergeRun_wf _ (fun x hx => h x ((sortSegments_perm l).mem_iff.1 hx))

theorem merge_cover (l : List (ℚ × ℚ)) :
    ∀ x ∈ l, ∃ y ∈ merge_overlapping_segments l, y.1 ≤ x.1 ∧ x.2 ≤ y.2 :=
  fun x hx =>
    mergeRun_cover _ (sortSegments_pairwise l) x ((sortSegments_perm l).mem_iff.2 hx)

/-- Permutation invariance of the merge for lists of proper intervals. -/
theorem merge_perm_inv (l₁ l₂ : List (ℚ × ℚ)) (hperm : l₁.Perm l₂)
    (hpr : ∀ x ∈ l₁, x.1 ≤ x.2) :
    merge_overlapping_segments l₁ = merge_overlapping_segments l₂ :=
  mergeRun_perm (sortSegments l₁) (sortSegments l₂)
    ((sortSegments_perm l₁).trans (hperm.trans (sortSegments_perm l₂).symm))
    (sortSegments_pairwise l₁) (sortSegments_pairwise l₂)
    (fun x hx => hpr x ((sortSegments_perm l₁).mem_iff.1 hx))

/-! ### Facts about the Speech Segment Deriver -/

theorem collectSegments_cons (padding : ℚ) (c : Cue) (rest : List Cue) :
    collectSegments padding (c :: rest) =
      (if max 0 ((c.start : ℚ) / 1000 - padding) < max 0 ((c.«end» : ℚ) / 1000 + padding)
        then [(max 0 ((c.start : ℚ) / 1000 - padding), max 0 ((c.«end» : ℚ) / 1000 + padding))]
        else []) ++ collectSegments padding rest := by
  by_cases h :
      max 0 ((c.start : ℚ) / 1000 - padding) < max 0 ((c.«end» : ℚ) / 1000 + padding)
  · simp [collectSegments, h]
  · simp [collectSegments, h]

/-- The per-cue loop of the Deriver computes exactly the spec-side per-cue
step: pad, clamp each endpoint independently, discard on nonpositive duration. -/
theorem collectSegments_eq_filterMap (padding : ℚ) :
    ∀ cues : List Cue,
      collectSegments padding cues = cues.filterMap (deriver_spec_step padding)
  | [] => rfl
  | c :: rest => by
    rw [collectSegments_cons, List.filterMap_cons,
      collectSegments_eq_filterMap padding rest]
    by_cases h :
        max 0 ((c.start : ℚ) / 1000 - padding) < max 0 ((c.«end» : ℚ) / 1000 + padding)
    · have hstep : deriver_spec_step padding c =
          some (max 0 ((c.start : ℚ) / 1000 - padding),
            max 0 ((c.«end» : ℚ) / 1000 + padding)) := by
        simp [deriver_spec_step, not_le.2 h]
      rw [hstep]
      simp [h]
    · have hstep : deriver_spec_step padding c = none := by
        simp [deriver_spec_step, not_lt.1 h]
      rw [hstep]
      simp [h]

theorem collectSegments_wf (padding : ℚ) :
    ∀ cues : List Cue, ∀ x ∈ collectSegments padding cues, 0 ≤ x.1 ∧ x.1 < x.2
  | c :: rest, x, hx => by
    rw [collectSegments_cons] at hx
    by_cases h :
        max 0 ((c.start : ℚ) / 1000 - padding) < max 0 ((c.«end» : ℚ) / 1000 + padding)
    · rw [if_pos h] at hx
      rcases List.mem_cons.1 hx with rfl | hx2
      · exact ⟨le_max_left _ _, h⟩
      · exact collectSegments_wf padding rest x hx2
    · rw [if_neg h] at hx
      exact collectSegments_wf padding rest x hx

/-- Every segment produced by the Deriver has a nonnegative start and positive
duration. -/
theorem extract_speech_timing_wf (cues : List Cue) (padding : ℚ) (delay : ℤ) :
    ∀ x ∈ extract_speech_timing cues padding delay, 0 ≤ x.1 ∧ x.1 < x.2 :=
  merge_wf _ (collectSegments_wf padding _)

/-! ### Sorted-window lemmas for the Re-timer -/

/-- Ordering of cues by start time, the order established by `subs.sort()`
before the re-timing loop. -/
def cueLE (a b : Cue) : Prop := a.start ≤ b.start

instance : DecidableRel cueLE := fun a b => inferInstanceAs (Decidable (a.start ≤ b.start))

/-- On a start-sorted cue list, dropping the longest prefix of cues with
`start < s` (what `bisect_left` computes) removes exactly the cues with
`start < s`. -/
theorem dropWhile_sorted (s : ℤ) :
    ∀ l : List Cue, List.Pairwise cueLE l →
      l.dropWhile (fun c => decide (c.start < s)) =
        l.filter (fun c => decide (s ≤ c.start))
  | [], _ => rfl
  | c :: t, h => by
    obtain ⟨hc, ht⟩ := List.pairwise_cons.1 h
    by_cases hcs : c.start < s
    · have h1 : ¬ s ≤ c.start := not_le.2 hcs
      simp only [List.dropWhile_cons, List.filter_cons, hcs, h1, decide_True,
        decide_False, if_true, if_false]
      exact dropWhile_sorted s t ht
    · have h1 : s ≤ c.start := not_lt.1 hcs
      simp only [List.dropWhile_cons, List.filter_cons, hcs, h1, decide_True,
        decide_False, Bool.false_eq_true, if_true, if_false]
      rw [List.filter_eq_self.2 fun y hy => decide_eq_true (le_trans h1 (hc y hy))]

/-- On a start-sorted cue list, scanning until the first cue with
`start >= e` (the loop's `break`) keeps exactly the cues with `start < e`. -/
theorem takeWhile_sorted (e : ℤ) :
    ∀ l : List Cue, List.Pairwise cueLE l →
      l.takeWhile (fun c => decide (c.start < e)) =
        l.filter (fun c => decide (c.start < e))
  | [], _ => rfl
  | c :: t, h => by
    obtain ⟨hc, ht⟩ := List.pairwise_cons.1 h
    by_cases hcs : c.start < e
    · simp only [List.takeWhile_cons, List.filter_cons, hcs, decide_True, if_true]
      rw [takeWhile_sorted e t ht]
    · simp only [List.takeWhile_cons, List.filter_cons, hcs, decide_False,
        Bool.false_eq_true, if_false]
      rw [List.filter_eq_nil_iff.2 fun y hy =>
        by simp only [decide_eq_true_eq]; exact fun hlt => hcs (lt_of_le_of_lt (hc y hy) hlt)]

/-- The bisect-and-break window over a start-sorted cue list contains exactly
the cues with start in [s, e). -/
theorem window_eq_filter (s e : ℤ) (l : List Cue) (h : List.Pairwise cueLE l) :
    (l.dropWhile (fun c => decide (c.start < s))).takeWhile
        (fun c => decide (c.start < e)) =
      l.filter (fun c => decide (s ≤ c.start ∧ c.start < e)) := by
  rw [dropWhile_sorted s l h, takeWhile_sorted e _ (h.filter _), List.filter_filter]
  congr 1
  funext c
  simp [Bool.decide_and, Bool.and_comm]

/-! ### Facts about pyInt and the Re-timer -/

theorem ratFloor_eq (q : ℚ) : ratFloor q = ⌊q⌋ := Rat.floor_def.symm

theorem pyInt_eq_floor (q : ℚ) (h : 0 ≤ q) : pyInt q = ⌊q⌋ := by
  simp [pyInt, h, ratFloor_eq]

theorem pyInt_mono_nonneg {a b : ℚ} (ha : 0 ≤ a) (hab : a ≤ b) : pyInt a ≤ pyInt b := by
  rw [pyInt_eq_floor a ha, pyInt_eq_floor b (le_trans ha hab)]
  exact Int.floor_le_floor hab

/-- Well-formedness of a segment list as produced by the Deriver: every
interval starts at or after zero and has positive duration. -/
def segsWF (segs : List (ℚ × ℚ)) : Prop := ∀ x ∈ segs, 0 ≤ x.1 ∧ x.1 < x.2

theorem segDur_nonneg {s e : ℚ} (h0 : 0 ≤ s) (h1 : s < e) :
    0 ≤ pyInt (e * 1000) - pyInt (s * 1000) := by
  have hmono : pyInt (s * 1000) ≤ pyInt (e * 1000) :=
    pyInt_mono_nonneg (by positivity) (by nlinarith)
  omega

theorem totalDurMs_nil : totalDurMs [] = 0 := rfl

theorem totalDurMs_cons (s e : ℚ) (rest : List (ℚ × ℚ)) :
    totalDurMs ((s, e) :: rest) =
      (pyInt (e * 1000) - pyInt (s * 1000)) + totalDurMs rest := by
  simp [totalDurMs]

theorem totalDurMs_nonneg : ∀ segs : List (ℚ × ℚ), segsWF segs → 0 ≤ totalDurMs segs
  | [], _ => le_refl 0
  | (s, e) :: rest, h => by
    obtain ⟨h0, h1⟩ := h (s, e) (List.mem_cons_self _ _)
    have hrest := totalDurMs_nonneg rest (fun x hx => h x (List.mem_cons_of_mem _ hx))
    have hdur := segDur_nonneg (show (0:ℚ) ≤ s from h0) (show s < e from h1)
    rw [totalDurMs_cons]
    omega

theorem condenseSegs_cons (s e : ℚ) (rest : List (ℚ × ℚ)) (subs : List Cue) (cumul : ℤ) :
    condenseSegs ((s, e) :: rest) subs cumul =
      (((subs.dropWhile (fun c => decide (c.start < pyInt (s * 1000)))).takeWhile
          (fun c => decide (c.start < pyInt (e * 1000)))).map
          (retimeCue (pyInt (s * 1000)) cumul (pyInt (e * 1000) - pyInt (s * 1000))) ++
        (condenseSegs rest subs (cumul + (pyInt (e * 1000) - pyInt (s * 1000)))).1,
       (condenseSegs rest subs (cumul + (pyInt (e * 1000) - pyInt (s * 1000)))).2) := rfl

/-- The cumulative counter after the loop is its initial value plus the sum of
all segment durations, whether or not any segment contained cues. -/
theorem condenseSegs_snd : ∀ (segs : List (ℚ × ℚ)) (subs : List Cue) (cumul : ℤ),
    (condenseSegs segs subs cumul).2 = cumul + totalDurMs segs
  | [], _, cumul => by simp [condenseSegs, totalDurMs_nil]
  | (s, e) :: rest, subs, cumul => by
    rw [condenseSegs_cons, totalDurMs_cons]
    show (condenseSegs rest subs _).2 = _
    rw [condenseSegs_snd rest subs _]
    ring

theorem retimer_spec_nil (subs : List Cue) (c0 : ℤ) : retimer_spec [] subs c0 = [] := rfl

theorem retimer_spec_cons (s e : ℚ) (rest : List (ℚ × ℚ)) (subs : List Cue) (c0 : ℤ) :
    retimer_spec ((s, e) :: rest) subs c0 =
      (subs.filter (fun c =>
          decide (pyInt (s * 1000) ≤ c.start ∧ c.start < pyInt (e * 1000)))).map
          (retimeCue (pyInt (s * 1000)) c0 (pyInt (e * 1000) - pyInt (s * 1000))) ++
        retimer_spec rest subs (c0 + (pyInt (e * 1000) - pyInt (s * 1000))) := by
  simp [retimer_spec, segsWithCumul, List.flatMap_cons]

/-- On a start-sorted cue list, the bisect-and-break loop of the source emits
exactly the cues described by the spec: for each segment, every cue with start
in [segment_start_ms, segment_end_ms), re-based by the cumulative offset. -/
theorem condenseSegs_fst_spec :
    ∀ (segs : List (ℚ × ℚ)) (subs : List Cue) (cumul : ℤ),
      List.Pairwise cueLE subs →
      (condenseSegs segs subs cumul).1 = retimer_spec segs subs cumul
  | [], _, _, _ => rfl
  | (s, e) :: rest, subs, cumul, h => by
    rw [condenseSegs_cons, retimer_spec_cons]
    show _ ++ _ = _ ++ _
    rw [window_eq_filter (pyInt (s * 1000)) (pyInt (e * 1000)) subs h,
      condenseSegs_fst_spec rest subs _ h]

/-- Bounds on every emitted cue: its start is at or after the cumulative
offset at which its segment begins, and both its start and its clamped end
stay within the final cumulative duration. -/
theorem condenseSegs_bounds :
    ∀ (segs : List (ℚ × ℚ)) (subs : List Cue) (cumul : ℤ),
      List.Pairwise cueLE subs → segsWF segs → 0 ≤ cumul →
      ∀ c ∈ (condenseSegs segs subs cumul).1,
        cumul ≤ c.start ∧ c.start < (condenseSegs segs subs cumul).2 ∧
          c.«end» ≤ (condenseSegs segs subs cumul).2
  | [], _, _, _, _, _, c, hc => by cases hc
  | (s, e) :: rest, subs, cumul, hsort, hwf, hcum, c, hc => by
    obtain ⟨h0, h1⟩ := hwf (s, e) (List.mem_cons_self _ _)
    have hwfrest : segsWF rest := fun x hx => hwf x (List.mem_cons_of_mem _ hx)
    have hdur := segDur_nonneg (show (0:ℚ) ≤ s from h0) (show s < e from h1)
    have htot := totalDurMs_nonneg rest hwfrest
    rw [condenseSegs_cons] at hc ⊢
    rw [window_eq_filter (pyInt (s * 1000)) (pyInt (e * 1000)) subs hsort] at hc
    show cumul ≤ c.start ∧
      c.start < (condenseSegs rest subs _).2 ∧ c.«end» ≤ (condenseSegs rest subs _).2
    rw [condenseSegs_snd rest subs _]
    rcases List.mem_append.1 hc with hbatch | htail
    · obtain ⟨c0, hc0, rfl⟩ := List.mem_map.1 hbatch
      obtain ⟨_, hwindow⟩ := List.mem_filter.1 hc0
      obtain ⟨hlo, hhi⟩ := of_decide_eq_true hwindow
      refine ⟨?_, ?_, ?_⟩
      · show cumul ≤ c0.start - pyInt (s * 1000) + cumul
        omega
      · show c0.start - pyInt (s * 1000) + cumul < _
        omega
      · show min (c0.«end» - pyInt (s * 1000) + cumul)
            (pyInt (e * 1000) - pyInt (s * 1000) + cumul) ≤ _
        have hmin := min_le_right (c0.«end» - pyInt (s * 1000) + cumul)
          (pyInt (e * 1000) - pyInt (s * 1000) + cumul)
        omega
    · have hrec := condenseSegs_bounds rest subs
        (cumul + (pyInt (e * 1000) - pyInt (s * 1000))) hsort hwfrest (by omega) c htail
      rw [condenseSegs_snd rest subs _] at hrec
      obtain ⟨ha, hb, hcend⟩ := hrec
      exact ⟨by omega, by omega, by omega⟩

/-! ### Facts about the LRC timestamp -/

/-- The minutes computed by `divmod(start_ms / 1000, 60)` are the integer
division of the start time by 60000 milliseconds. -/
theorem lrcMinutes_eq_div (s : ℤ) : lrcMinutes s = s / 60000 := by
  unfold lrcMinutes
  rw [ratFloor_eq, div_div]
  have h1 : ((1000 : ℚ) * 60) = ((60000 : ℕ) : ℚ) := by norm_num
  rw [h1, Rat.floor_intCast_div_natCast]
  norm_num

/-- Values of ten or more are printed by `:02d` in full, with no truncation. -/
theorem pad2_full (n : ℤ) (h : 10 ≤ n) : pad2 n = toString n := by
  unfold pad2
  rw [if_neg (by omega)]

/-! ### Claim theorems -/

/-- Claim C1: for every segment list processed in ascending order and every
cue list sorted ascending by start, the re-timer emits, for each segment and
each cue with start in [segment_start_ms, segment_end_ms), a cue re-based by
`cue.start - segment_start_ms + cumulative_duration_ms`, with the end clamped
to the segment boundary and the text unchanged (the `retimer_spec` side), and
the cumulative duration advances by every segment duration, cues or not. -/
theorem C1_retimer_emits_spec (segs : List (ℚ × ℚ)) (subs : List Cue) (cumul : ℤ)
    (hsort : List.Pairwise cueLE subs) :
    condenseSegs segs subs cumul =
      (retimer_spec segs subs cumul, cumul + totalDurMs segs) :=
  Prod.ext (condenseSegs_fst_spec segs subs cumul hsort)
    (condenseSegs_snd segs subs cumul)

/-- Witness for C1 at the cross-segment example of the spec: segments of
2000 ms and 1500 ms, a cue 200 ms into the second segment. -/
theorem C1_retimer_emits_spec_witness :
    List.Pairwise cueLE [Cue.mk 3200 3400 "c"] ∧
    condenseSegs [((0 : ℚ), (2 : ℚ)), (3, 9 / 2)] [Cue.mk 3200 3400 "c"] 0 =
      (retimer_spec [((0 : ℚ), (2 : ℚ)), (3, 9 / 2)] [Cue.mk 3200 3400 "c"] 0,
        0 + totalDurMs [((0 : ℚ), (2 : ℚ)), (3, 9 / 2)]) :=
  ⟨by decide, C1_retimer_emits_spec _ _ _ (by decide)⟩

/-- Claim C2: the Interval Merger returns, for every input, a list sorted by
start in which consecutive intervals neither touch nor overlap (touching
inputs, next.start = current.end, are merged, as the concrete example
(1,2),(2,3) shows), every input interval is contained in some output interval
spanning at least its range, and the empty input yields the empty output. -/
theorem C2_merge_contract (l : List (ℚ × ℚ)) (x : ℚ × ℚ) (hx : x ∈ l) :
    merge_overlapping_segments [] = [] ∧
    List.Pairwise segLE (merge_overlapping_segments l) ∧
    List.Chain' (fun a b => a.2 < b.1) (merge_overlapping_segments l) ∧
    (∃ y ∈ merge_overlapping_segments l, y.1 ≤ x.1 ∧ x.2 ≤ y.2) ∧
    merge_overlapping_segments [((1 : ℚ), (2 : ℚ)), (2, 3)] = [(1, 3)] :=
  ⟨rfl, merge_pairwise l, merge_chain l, merge_cover l x hx, by decide⟩

/-- Witness for C2 at the touching-boundary example. -/
theorem C2_merge_contract_witness :
    (((1 : ℚ), (2 : ℚ)) ∈ [((1 : ℚ), (2 : ℚ)), (2, 3)]) ∧
    (merge_overlapping_segments [] = [] ∧
      List.Pairwise segLE (merge_overlapping_segments [((1 : ℚ), (2 : ℚ)), (2, 3)]) ∧
      List.Chain' (fun a b => a.2 < b.1)
        (merge_overlapping_segments [((1 : ℚ), (2 : ℚ)), (2, 3)]) ∧
      (∃ y ∈ merge_overlapping_segments [((1 : ℚ), (2 : ℚ)), (2, 3)],
        y.1 ≤ ((1 : ℚ), (2 : ℚ)).1 ∧ ((1 : ℚ), (2 : ℚ)).2 ≤ y.2) ∧
      merge_overlapping_segments [((1 : ℚ), (2 : ℚ)), (2, 3)] = [(1, 3)]) :=
  ⟨by decide, C2_merge_contract _ _ (by decide)⟩

/-- Claim C3: for every run of the pipeline producing a non-empty segment
list (the Deriver output on some cue list), re-timing any start-sorted cue
list over those segments gives a final cumulative duration equal to the sum of
all integer-millisecond segment durations, and every emitted cue has a
nonnegative start and an end within the total duration, so its [start, end)
range lies within [0, total_duration_ms]. -/
theorem C3_timeline_invariant (cues subs : List Cue) (padding : ℚ) (delay : ℤ)
    (hsort : List.Pairwise cueLE subs)
    (hne : extract_speech_timing cues padding delay ≠ []) :
    (condenseSegs (extract_speech_timing cues padding delay) subs 0).2 =
      totalDurMs (extract_speech_timing cues padding delay) ∧
    ∀ c ∈ (condenseSegs (extract_speech_timing cues padding delay) subs 0).1,
      0 ≤ c.start ∧
        c.start ≤ totalDurMs (extract_speech_timing cues padding delay) ∧
        c.«end» ≤ totalDurMs (extract_speech_timing cues padding delay) ∧
        ∀ t : ℤ, c.start ≤ t → t < c.«end» →
          0 ≤ t ∧ t ≤ totalDurMs (extract_speech_timing cues padding delay) := by
  have hwf : segsWF (extract_speech_timing cues padding delay) :=
    extract_speech_timing_wf cues padding delay
  have hsum := condenseSegs_snd (extract_speech_timing cues padding delay) subs 0
  refine ⟨by omega, fun c hc => ?_⟩
  have hb := condenseSegs_bounds (extract_speech_timing cues padding delay) subs 0
    hsort hwf (le_refl 0) c hc
  rw [hsum] at hb
  obtain ⟨h1, h2, h3⟩ := hb
  exact ⟨h1, by omega, by omega, fun t ht1 ht2 => ⟨by omega, by omega⟩⟩

/-- Witness for C3: one cue, padding 0, delay 0, one derived segment. -/
theorem C3_timeline_invariant_witness :
    List.Pairwise cueLE [Cue.mk 500 900 "a"] ∧
    extract_speech_timing [Cue.mk 500 900 "a"] 0 0 ≠ [] ∧
    ((condenseSegs (extract_speech_timing [Cue.mk 500 900 "a"] 0 0)
          [Cue.mk 500 900 "a"] 0).2 =
        totalDurMs (extract_speech_timing [Cue.mk 500 900 "a"] 0 0) ∧
      ∀ c ∈ (condenseSegs (extract_speech_timing [Cue.mk 500 900 "a"] 0 0)
          [Cue.mk 500 900 "a"] 0).1,
        0 ≤ c.start ∧
          c.start ≤ totalDurMs (extract_speech_timing [Cue.mk 500 900 "a"] 0 0) ∧
          c.«end» ≤ totalDurMs (extract_speech_timing [Cue.mk 500 900 "a"] 0 0) ∧
          ∀ t : ℤ, c.start ≤ t → t < c.«end» →
            0 ≤ t ∧ t ≤ totalDurMs (extract_speech_timing [Cue.mk 500 900 "a"] 0 0)) := by
  have hne : extract_speech_timing [Cue.mk 500 900 "a"] 0 0 ≠ [] := by
    norm_num [extract_speech_timing, applyDelay, collectSegments,
      merge_overlapping_segments, sortSegments, mergeRun, mergeInto]
  exact ⟨by decide, hne, C3_timeline_invariant _ _ _ _ (by decide) hne⟩

/-- Claim C4: the Deriver computes, per cue, start_sec = cue.start/1000 -
padding and end_sec = cue.end/1000 + padding, clamps both to be nonnegative
independently, and discards the interval when end_sec <= start_sec (the
filterMap over `deriver_spec_step`); concretely, a cue whose padded interval
is (-1.5, -1.0) seconds clamps to (0, 0) and is discarded. -/
theorem C4_deriver_step (cues : List Cue) (padding : ℚ) (delay : ℤ) :
    extract_speech_timing cues padding delay =
      merge_overlapping_segments
        ((applyDelay delay cues).filterMap (deriver_spec_step padding)) ∧
    max (0 : ℚ) (((-1500 : ℤ) : ℚ) / 1000 - 0) = 0 ∧
    max (0 : ℚ) (((-1000 : ℤ) : ℚ) / 1000 + 0) = 0 ∧
    deriver_spec_step 0 (Cue.mk (-1500) (-1000) "x") = none ∧
    extract_speech_timing [Cue.mk 500 1000 "x"] 0 (-2000) = [] := by
  refine ⟨?_, by norm_num, by norm_num, by norm_num [deriver_spec_step], ?_⟩
  · unfold extract_speech_timing
    rw [collectSegments_eq_filterMap]
  · norm_num [extract_speech_timing, applyDelay, shiftCue, collectSegments,
      merge_overlapping_segments, sortSegments, mergeRun]

/-- Claim C5: the chapter filter removes exactly the cues whose
[start/1000, end/1000] second range overlaps some skip interval under
NOT(cue.end < skip.start or cue.start > skip.end); an empty skip list leaves
the list unchanged, survivors keep their order and fields (the output is a
sublist of the input), and the boundary example cue [29500, 30500] ms against
the skip interval (0, 30) s is removed. -/
theorem C5_chapter_filter (cues : List Cue) (skips : List (ℚ × ℚ)) (c : Cue) :
    filter_chapters cues [] = cues ∧
    (filter_chapters cues skips).Sublist cues ∧
    (c ∈ filter_chapters cues skips ↔ c ∈ cues ∧
      ¬ ∃ skip ∈ skips,
        ¬ ((c.«end» : ℚ) / 1000 < skip.1 ∨ (c.start : ℚ) / 1000 > skip.2)) ∧
    filter_chapters [Cue.mk 29500 30500 "x"] [((0 : ℚ), (30 : ℚ))] = [] := by
  refine ⟨?_, List.filter_sublist _, ?_, ?_⟩
  · simp [filter_chapters]
  · rw [filter_chapters, List.mem_filter]
    simp [segments_overlap]
  · norm_num [filter_chapters, segments_overlap, List.filter]

/-- Claim C6: the pattern filter removes exactly the cues whose rendered plain
text has a match of some pattern beginning at position 0 (a prefix in the
pattern's language), not merely occurring anywhere; an empty pattern list
leaves the list unchanged and survivors form a sublist of the input. The
anchoring example: the pattern matching strings that start with a music note
removes the cue whose text starts with one and keeps the cue that merely
contains one (on which a search-anywhere would succeed). -/
theorem C6_pattern_filter (plaintext : Cue → String) (cues : List Cue)
    (patterns : List (String → Bool)) (c : Cue) :
    filter_skip_patterns plaintext cues [] = cues ∧
    (filter_skip_patterns plaintext cues patterns).Sublist cues ∧
    (c ∈ filter_skip_patterns plaintext cues patterns ↔
      c ∈ cues ∧ ∀ lang ∈ patterns, reMatch lang (plaintext c) = false) ∧
    filter_skip_patterns (fun cue => cue.text)
        [Cue.mk 0 1000 "♪ song ♪", Cue.mk 2000 3000 "not ♪ at start"]
        [fun str => str.toList.head? = some '♪'] =
      [Cue.mk 2000 3000 "not ♪ at start"] ∧
    reSearch (fun str => str.toList.head? = some '♪') "not ♪ at start" = true := by
  refine ⟨?_, List.filter_sublist _, ?_, by decide, by decide⟩
  · simp [filter_skip_patterns]
  · rw [filter_skip_patterns, List.mem_filter]
    simp

/-- Claim C7 counterexample: with a degenerate pair (end < start) the merge is
not invariant under permutation: [(0,-5),(0,3)] and its transposition give
different outputs, because the stable sort keeps both orders and only the
order starting with the proper interval absorbs the other. -/
theorem C7_counterexample :
    ([((0 : ℚ), (-5 : ℚ)), (0, 3)]).Perm [((0 : ℚ), (3 : ℚ)), (0, -5)] ∧
    merge_overlapping_segments [((0 : ℚ), (-5 : ℚ)), (0, 3)] ≠
      merge_overlapping_segments [((0 : ℚ), (3 : ℚ)), (0, -5)] :=
  ⟨by decide, by decide⟩

/-- Claim C7 as amended: for input lists of proper intervals (start at most
end for every pair), the Interval Merger produces the same output on every
permutation of the input. -/
theorem C7_merge_perm_invariant (l₁ l₂ : List (ℚ × ℚ)) (hperm : l₁.Perm l₂)
    (hpr : ∀ x ∈ l₁, x.1 ≤ x.2) :
    merge_overlapping_segments l₁ = merge_overlapping_segments l₂ :=
  merge_perm_inv l₁ l₂ hperm hpr

/-- Witness for the amended C7 at a concrete transposition of proper intervals. -/
theorem C7_merge_perm_invariant_witness :
    ([((3 : ℚ), (4 : ℚ)), (1, 2)]).Perm [((1 : ℚ), (2 : ℚ)), (3, 4)] ∧
    (∀ x ∈ [((3 : ℚ), (4 : ℚ)), (1, 2)], x.1 ≤ x.2) ∧
    merge_overlapping_segments [((3 : ℚ), (4 : ℚ)), (1, 2)] =
      merge_overlapping_segments [((1 : ℚ), (2 : ℚ)), (3, 4)] :=
  ⟨by decide, by decide, C7_merge_perm_invariant _ _ (by decide) (by decide)⟩

/-- Claim C8: when every padded, clamped, delay-shifted cue interval is
discarded, the Deriver returns the empty list (it is a total function, not an
exception), the caller in process_file turns the observed emptiness into the
per-file error value, and the batch loop records the failure and continues
with the remaining files. -/
theorem C8_empty_is_not_exception (cues : List Cue) (padding : ℚ) (delay : ℤ)
    (h : ∀ c ∈ applyDelay delay cues, deriver_spec_step padding c = none) :
    extract_speech_timing cues padding delay = [] ∧
    process_file_segments cues padding delay =
      Except.error "No valid segments found" ∧
    ∀ rest : List (List Cue),
      batch_process padding delay (cues :: rest) =
        ((batch_process padding delay rest).1,
          (batch_process padding delay rest).2 + 1) := by
  have hext : extract_speech_timing cues padding delay = [] := by
    unfold extract_speech_timing
    rw [collectSegments_eq_filterMap, List.filterMap_eq_nil_iff.2 h]
    rfl
  have hproc : process_file_segments cues padding delay =
      Except.error "No valid segments found" := by
    unfold process_file_segments
    rw [hext]
    rfl
  refine ⟨hext, hproc, fun rest => ?_⟩
  simp [batch_process, hproc]

/-- Witness for C8 at a cue pushed fully negative by the delay. -/
theorem C8_empty_is_not_exception_witness :
    (∀ c ∈ applyDelay (-2000) [Cue.mk 500 1000 "a"], deriver_spec_step 0 c = none) ∧
    (extract_speech_timing [Cue.mk 500 1000 "a"] 0 (-2000) = [] ∧
      process_file_segments [Cue.mk 500 1000 "a"] 0 (-2000) =
        Except.error "No valid segments found" ∧
      ∀ rest : List (List Cue),
        batch_process 0 (-2000) ([Cue.mk 500 1000 "a"] :: rest) =
          ((batch_process 0 (-2000) rest).1, (batch_process 0 (-2000) rest).2 + 1)) := by
  have h : ∀ c ∈ applyDelay (-2000) [Cue.mk 500 1000 "a"],
      deriver_spec_step 0 c = none := by
    intro c hc
    have hc2 : c = Cue.mk (-1500) (-1000) "a" := by
      simpa [applyDelay, shiftCue] using hc
    subst hc2
    norm_num [deriver_spec_step]
  exact ⟨h, C8_empty_is_not_exception _ _ _ h⟩

/-- Claim C9 counterexample: merge_overlapping_segments sorts its argument in
place, so after a call on the unsorted list [(3,4),(1,2)] the caller's list no
longer holds the pairs in their original order. -/
theorem C9_counterexample :
    (merge_run [((3 : ℚ), (4 : ℚ)), (1, 2)]).2 ≠ [((3 : ℚ), (4 : ℚ)), (1, 2)] := by
  decide

/-- Claim C9 as amended: the merger computes its return value purely, but the
caller's argument list is left sorted by start: after the call it holds the
same pairs as a start-sorted permutation of the original contents, not
necessarily in their original order. -/
theorem C9_argument_sorted_permutation (segments : List (ℚ × ℚ)) :
    (merge_run segments).1 = merge_overlapping_segments segments ∧
    (merge_run segments).2.Perm segments ∧
    List.Pairwise segLE (merge_run segments).2 := by
  by_cases h : segments.isEmpty
  · have hnil : segments = [] := List.isEmpty_iff.1 h
    subst hnil
    exact ⟨rfl, List.Perm.refl _, List.Pairwise.nil⟩
  · unfold merge_run
    rw [if_neg h]
    exact ⟨rfl, sortSegments_perm _, sortSegments_pairwise _⟩

/-- Claim C10 counterexample: at a start time of 100 minutes the emitted
timestamp is [100:00.00] — the minutes value is printed in full; it is neither
wrapped modulo 60 (40) nor modulo 100 (00), nor truncated to the two-character
mm field (the line is longer than the [mm:ss.cc] shape). -/
theorem C10_counterexample :
    lrc_time 6000000 = "[100:00.00]" ∧
    ("[100:00.00]" : String) ≠ "[40:00.00]" ∧
    ("[100:00.00]" : String) ≠ "[00:00.00]" ∧
    ("[100:00.00]" : String).length ≠ ("[59:59.99]" : String).length := by
  refine ⟨?_, by decide, by decide, by decide⟩
  norm_num [lrc_time, lrcMinutes, lrcSeconds, ratFloor, pad2, fmt05_2, rhe]
  decide

/-- Claim C10 as amended: each cue start becomes the timestamp
[pad(minutes):seconds] with minutes computed from start_ms/1000 seconds by
integer division (start_ms / 60000) and no hour field; a start time of an hour
or more yields a minutes value of 60 or more which is emitted verbatim,
widening the field rather than wrapping or truncating. -/
theorem C10_lrc_minutes (s : ℤ) (h : 0 ≤ s) :
    lrc_time s = "[" ++ pad2 (s / 60000) ++ ":" ++ fmt05_2 (lrcSeconds s) ++ "]" ∧
    lrcMinutes s = s / 60000 ∧
    (3600000 ≤ s → 60 ≤ lrcMinutes s) ∧
    (10 ≤ lrcMinutes s → pad2 (lrcMinutes s) = toString (lrcMinutes s)) := by
  refine ⟨?_, lrcMinutes_eq_div s, ?_, ?_⟩
  · unfold lrc_time
    rw [lrcMinutes_eq_div]
  · intro hs
    rw [lrcMinutes_eq_div]
    omega
  · intro hs
    exact pad2_full _ hs

/-- Witness for the amended C10 at one hour. -/
theorem C10_lrc_minutes_witness :
    (0 : ℤ) ≤ 3600000 ∧
    (lrc_time 3600000 =
        "[" ++ pad2 (3600000 / 60000) ++ ":" ++ fmt05_2 (lrcSeconds 3600000) ++ "]" ∧
      lrcMinutes 3600000 = 3600000 / 60000 ∧
      ((3600000 : ℤ) ≤ 3600000 → 60 ≤ lrcMinutes 3600000) ∧
      (10 ≤ lrcMinutes 3600000 →
        pad2 (lrcMinutes 3600000) = toString (lrcMinutes 3600000))) :=
  ⟨by decide, C10_lrc_minutes 3600000 (by decide)⟩

end Shuku
